import Mathlib

/-!
A shallow embedding of the `bitsets` crate (`src/lib.rs`): a dense bit set
over a vector of machine words (`usize`, 64-bit), with per-bit test/set/flip,
whole-set boolean operations, an iterator, and a debug rendering.

Machine words are modelled as `Nat` values; every word produced by the Rust
code is `< 2 ^ 64`.  Rust panics (out-of-bounds `Vec` indexing in the bit
operations, `assert!` failures in the combination operations) are modelled as
`Except` errors; the two distinct panic sources are distinguished by the
`BitSetError` constructors.  Mutation of `&mut self` is modelled by explicit
state passing: a mutating method returns the new `DenseBitSet` value.
-/

namespace BitSets

/-- `BITS_PER_WORD = size_of::<usize>() * 8` on the 64-bit targets the crate
  assumes (its own tests hard-code 64-bit words). -/
def BITS_PER_WORD : Nat := 64

/-- The all-ones word `usize::MAX = 2 ^ 64 - 1`. -/
def WORD_MAX : Nat := 2 ^ BITS_PER_WORD - 1

/-- `fn get_word_offset(pos) = pos / BITS_PER_WORD` -/
def get_word_offset (pos : Nat) : Nat := pos / BITS_PER_WORD

/-- `fn get_bit_offset(pos) = pos % BITS_PER_WORD` -/
def get_bit_offset (pos : Nat) : Nat := pos % BITS_PER_WORD

/-- `fn get_bitmask(pos) = 1 << get_bit_offset(pos)` (never overflows a word,
  since the shift amount is `< 64`). -/
def get_bitmask (pos : Nat) : Nat := 1 <<< get_bit_offset pos

/-- The two distinct failure conditions of the crate's operations:
  `outOfRange` models the out-of-bounds `Vec` index panic in `test`/`set`/
  `flip`, `sizeMismatch` models the `assert!(self.words() == other.words())`
  panic in the combination operations. -/
inductive BitSetError where
  | outOfRange : BitSetError
  | sizeMismatch : BitSetError
deriving DecidableEq, Repr

/-- `pub struct DenseBitSet { num_bits: usize, bits: Vec<usize> }`.
  The derived `PartialEq`/`Eq` (element-wise equality of both fields) is the
  derived `DecidableEq` here. -/
structure DenseBitSet where
  num_bits : Nat
  bits : List Nat
deriving DecidableEq, Repr

/-- `DenseBitSet::with_capacity_and_state`: rounds `num_bits` up to a whole
  number of words, fills every word with `initial_state`. -/
def with_capacity_and_state (num_bits initial_state : Nat) : DenseBitSet :=
  let full_words := num_bits / BITS_PER_WORD
  let remaining_bits := num_bits % BITS_PER_WORD
  let words_to_allocate := if remaining_bits > 0 then full_words + 1 else full_words
  { bits := List.replicate words_to_allocate initial_state
    num_bits := words_to_allocate * BITS_PER_WORD }

/-- `DenseBitSet::with_capacity`: all words zero. -/
def with_capacity (num_bits : Nat) : DenseBitSet :=
  with_capacity_and_state num_bits 0

/-- `DenseBitSet::from_bits`: a single-word set initialized to `bit_pattern`
  (the spec calls this constructor `from_word_pattern`). -/
def from_bits (bit_pattern : Nat) : DenseBitSet :=
  with_capacity_and_state BITS_PER_WORD bit_pattern

/-- `DenseBitSet::from_vec`: adopts the given words as backing storage
  (the spec calls this constructor `from_words`). -/
def from_vec (v : List Nat) : DenseBitSet :=
  { num_bits := BITS_PER_WORD * v.length, bits := v }

/-- `DenseBitSet::words`: the number of backing words. -/
def DenseBitSet.words (bs : DenseBitSet) : Nat := bs.bits.length

/-- `DenseBitSet::len`: the bit capacity `num_bits`. -/
def DenseBitSet.len (bs : DenseBitSet) : Nat := bs.num_bits

/-- `DenseBitSet::test`: `(self.bits[get_word_offset(i)] & get_bitmask(i)) != 0`.
  The `Vec` index panic when `get_word_offset i` is out of bounds is the
  `outOfRange` error. -/
def test (bs : DenseBitSet) (i : Nat) : Except BitSetError Bool :=
  match bs.bits.get? (get_word_offset i) with
  | some w => .ok (w &&& get_bitmask i != 0)
  | none => .error .outOfRange

/-- `DenseBitSet::set`: reads the prior word (panicking if out of bounds),
  ORs in the mask, and returns `(prior & bitmask) == 0` together with the
  mutated set. -/
def set (bs : DenseBitSet) (i : Nat) : Except BitSetError (Bool × DenseBitSet) :=
  match bs.bits.get? (get_word_offset i) with
  | some prior =>
      .ok (prior &&& get_bitmask i == 0,
        { bs with bits := bs.bits.set (get_word_offset i) (prior ||| get_bitmask i) })
  | none => .error .outOfRange

/-- `DenseBitSet::flip`: `self.bits[get_word_offset(i)] ^= get_bitmask(i)`;
  returns no value in Rust, so here just the mutated set. -/
def flip (bs : DenseBitSet) (i : Nat) : Except BitSetError DenseBitSet :=
  match bs.bits.get? (get_word_offset i) with
  | some w => .ok { bs with bits := bs.bits.set (get_word_offset i) (w ^^^ get_bitmask i) }
  | none => .error .outOfRange

/-- `DenseBitSet::inplace_not`: complements every word.  On `usize` words
  (`w < 2 ^ 64`), Rust's `!w` equals `w ^^^ WORD_MAX`. -/
def inplace_not (bs : DenseBitSet) : DenseBitSet :=
  { bs with bits := bs.bits.map (fun w => w ^^^ WORD_MAX) }

/-- `DenseBitSet::inplace_and`: asserts equal word counts, then ANDs
  word-wise (`zipWith` is exact because the lengths are equal). -/
def inplace_and (bs other : DenseBitSet) : Except BitSetError DenseBitSet :=
  if bs.words = other.words then
    .ok { bs with bits := List.zipWith (· &&& ·) bs.bits other.bits }
  else .error .sizeMismatch

/-- `DenseBitSet::inplace_or`. -/
def inplace_or (bs other : DenseBitSet) : Except BitSetError DenseBitSet :=
  if bs.words = other.words then
    .ok { bs with bits := List.zipWith (· ||| ·) bs.bits other.bits }
  else .error .sizeMismatch

/-- `DenseBitSet::inplace_xor`. -/
def inplace_xor (bs other : DenseBitSet) : Except BitSetError DenseBitSet :=
  if bs.words = other.words then
    .ok { bs with bits := List.zipWith (· ^^^ ·) bs.bits other.bits }
  else .error .sizeMismatch

/-- `DenseBitSet::and`: asserts equal word counts, clones `self`, applies
  `inplace_and` to the clone.  Cloning is the identity in the pure model. -/
def and (bs other : DenseBitSet) : Except BitSetError DenseBitSet :=
  if bs.words = other.words then inplace_and bs other
  else .error .sizeMismatch

/-- `DenseBitSet::or`. -/
def or (bs other : DenseBitSet) : Except BitSetError DenseBitSet :=
  if bs.words = other.words then inplace_or bs other
  else .error .sizeMismatch

/-- `DenseBitSet::xor`. -/
def xor (bs other : DenseBitSet) : Except BitSetError DenseBitSet :=
  if bs.words = other.words then inplace_xor bs other
  else .error .sizeMismatch

/-- `struct DenseBitIterator { collection: &DenseBitSet, index: usize }`. -/
structure DenseBitIterator where
  collection : DenseBitSet
  index : Nat
deriving DecidableEq, Repr

/-- `Iterator::next` for `DenseBitIterator`: while `index < collection.len()`,
  yields `collection.test(index)` and advances. -/
def DenseBitIterator.next (it : DenseBitIterator) :
    Option (Except BitSetError Bool × DenseBitIterator) :=
  if it.index < it.collection.len then
    some (test it.collection it.index, { it with index := it.index + 1 })
  else none

/-- `IntoIterator for &DenseBitSet`: starts at index 0. -/
def into_iter (bs : DenseBitSet) : DenseBitIterator :=
  { collection := bs, index := 0 }

/-- The items the iterator yields from position `i`, with enough fuel left
  (each item is the `test` result, an `Except` because `test` can panic).
  The `i < bs.len` guard is the loop condition of `next`; the fuel argument
  only makes the recursion structural. -/
def runSteps (bs : DenseBitSet) : Nat → Nat → List (Except BitSetError Bool)
  | _, 0 => []
  | i, d + 1 =>
    if i < bs.len then test bs i :: runSteps bs (i + 1) d
    else []

/-- Exhausts the iterator, collecting everything it yields.
  `run_matches_next` below shows this agrees with the `next` protocol. -/
def DenseBitIterator.run (it : DenseBitIterator) : List (Except BitSetError Bool) :=
  runSteps it.collection it.index (it.collection.len - it.index)

/-- `fmt::Debug for DenseBitSet`: writes `"DenseBitset: "` and then, for `i`
  in `0 .. len-1` in order, the character `'1'` if `test(i)` else `'0'`
  (a `test` panic aborts the rendering). -/
def fmtDebug (bs : DenseBitSet) : Except BitSetError String := do
  let chars ← (List.range bs.len).mapM (fun i => do
    let b ← test bs i
    pure (if b then '1' else '0'))
  pure ("DenseBitset: " ++ String.mk chars)

/-- The structural invariant of §3 of the spec:
  `words.length * word_width == capacity_bits`. -/
def WF (bs : DenseBitSet) : Prop :=
  bs.num_bits = bs.bits.length * BITS_PER_WORD

instance (bs : DenseBitSet) : Decidable (WF bs) := by
  unfold WF; infer_instance

/-! ### Helper lemmas about the addressing arithmetic -/

lemma get_bitmask_eq (i : Nat) : get_bitmask i = 2 ^ get_bit_offset i := by
  simp [get_bitmask, Nat.shiftLeft_eq]

lemma and_bitmask_bne (w i : Nat) :
    (w &&& get_bitmask i != 0) = w.testBit (get_bit_offset i) := by
  rw [get_bitmask_eq, Nat.and_two_pow]
  cases h : w.testBit (get_bit_offset i) <;>
    simp [h, (Nat.two_pow_pos (get_bit_offset i)).ne']

lemma and_bitmask_beq (w i : Nat) :
    (w &&& get_bitmask i == 0) = !w.testBit (get_bit_offset i) := by
  rw [get_bitmask_eq, Nat.and_two_pow]
  cases h : w.testBit (get_bit_offset i) <;>
    simp [h, (Nat.two_pow_pos (get_bit_offset i)).ne']

lemma lor_bitmask_testBit (w i : Nat) :
    (w ||| get_bitmask i).testBit (get_bit_offset i) = true := by
  rw [get_bitmask_eq, Nat.testBit_lor, Nat.testBit_two_pow_self, Bool.or_true]

lemma lor_bitmask_of_testBit {w i : Nat} (h : w.testBit (get_bit_offset i) = true) :
    w ||| get_bitmask i = w := by
  rw [get_bitmask_eq]
  apply Nat.eq_of_testBit_eq
  intro k
  rw [Nat.testBit_lor]
  by_cases hk : get_bit_offset i = k
  · subst hk
    rw [Nat.testBit_two_pow_self, h, Bool.true_or]
  · rw [Nat.testBit_two_pow_of_ne hk, Bool.or_false]

/-- With the structural invariant, the word offset is in bounds of the
  backing vector exactly when the bit index is below the capacity. -/
lemma idx_lt_iff {bs : DenseBitSet} (hwf : WF bs) {i : Nat} :
    get_word_offset i < bs.bits.length ↔ i < bs.len := by
  unfold WF at hwf
  unfold get_word_offset DenseBitSet.len BITS_PER_WORD at *
  omega

/-! ### Success and failure characterizations of the single-bit operations -/

lemma test_ok {bs : DenseBitSet} {i : Nat} (h : get_word_offset i < bs.bits.length) :
    test bs i = .ok ((bs.bits.get ⟨get_word_offset i, h⟩).testBit (get_bit_offset i)) := by
  unfold test
  rw [List.get?_eq_getElem?, List.getElem?_eq_getElem h]
  simp [and_bitmask_bne, List.get_eq_getElem]

lemma test_err {bs : DenseBitSet} {i : Nat} (h : bs.bits.length ≤ get_word_offset i) :
    test bs i = .error .outOfRange := by
  unfold test
  rw [List.get?_eq_getElem?, List.getElem?_eq_none h]

lemma set_ok {bs : DenseBitSet} {i : Nat} (h : get_word_offset i < bs.bits.length) :
    set bs i = .ok (bs.bits.get ⟨get_word_offset i, h⟩ &&& get_bitmask i == 0,
      { bs with bits := bs.bits.set (get_word_offset i) (bs.bits.get ⟨get_word_offset i, h⟩ ||| get_bitmask i) }) := by
  unfold set
  rw [List.get?_eq_getElem?, List.getElem?_eq_getElem h]
  simp [List.get_eq_getElem]

lemma set_err {bs : DenseBitSet} {i : Nat} (h : bs.bits.length ≤ get_word_offset i) :
    set bs i = .error .outOfRange := by
  unfold set
  rw [List.get?_eq_getElem?, List.getElem?_eq_none h]

lemma flip_ok {bs : DenseBitSet} {i : Nat} (h : get_word_offset i < bs.bits.length) :
    flip bs i = .ok { bs with bits := bs.bits.set (get_word_offset i) (bs.bits.get ⟨get_word_offset i, h⟩ ^^^ get_bitmask i) } := by
  unfold flip
  rw [List.get?_eq_getElem?, List.getElem?_eq_getElem h]
  simp [List.get_eq_getElem]

lemma flip_err {bs : DenseBitSet} {i : Nat} (h : bs.bits.length ≤ get_word_offset i) :
    flip bs i = .error .outOfRange := by
  unfold flip
  rw [List.get?_eq_getElem?, List.getElem?_eq_none h]

/-! ### List helpers -/

lemma set_get_self (l : List Nat) (n : Nat) (h : n < l.length) :
    l.set n (l.get ⟨n, h⟩) = l := by
  apply List.ext_getElem?
  intro k
  rw [List.getElem?_set]
  by_cases hk : n = k
  · subst hk
    simp [List.getElem?_eq_getElem h, h, List.get_eq_getElem]
  · simp [hk]

lemma zipWith_xor_cancel (a : List Nat) : ∀ b : List Nat, a.length = b.length →
    List.zipWith (· ^^^ ·) (List.zipWith (· ^^^ ·) a b) b = a := by
  induction a with
  | nil => intro b _; simp
  | cons x xs ih =>
    intro b h
    cases b with
    | nil => simp at h
    | cons y ys =>
      simp only [List.zipWith_cons_cons]
      rw [Nat.xor_cancel_right, ih ys (by simpa using h)]

lemma zipWith_xor_self (a : List Nat) :
    List.zipWith (· ^^^ ·) a a = List.replicate a.length 0 := by
  induction a with
  | nil => rfl
  | cons x xs ih =>
    simp [List.zipWith_cons_cons, Nat.xor_self, ih, List.replicate_succ]

/-! ### Success characterizations of the combination operations -/

lemma inplace_and_ok {a b : DenseBitSet} (h : a.words = b.words) :
    inplace_and a b = .ok { a with bits := List.zipWith (· &&& ·) a.bits b.bits } := by
  unfold inplace_and
  rw [if_pos h]

lemma inplace_or_ok {a b : DenseBitSet} (h : a.words = b.words) :
    inplace_or a b = .ok { a with bits := List.zipWith (· ||| ·) a.bits b.bits } := by
  unfold inplace_or
  rw [if_pos h]

lemma inplace_xor_ok {a b : DenseBitSet} (h : a.words = b.words) :
    inplace_xor a b = .ok { a with bits := List.zipWith (· ^^^ ·) a.bits b.bits } := by
  unfold inplace_xor
  rw [if_pos h]

lemma and_ok {a b : DenseBitSet} (h : a.words = b.words) :
    and a b = .ok { a with bits := List.zipWith (· &&& ·) a.bits b.bits } := by
  unfold and
  rw [if_pos h, inplace_and_ok h]

lemma or_ok {a b : DenseBitSet} (h : a.words = b.words) :
    or a b = .ok { a with bits := List.zipWith (· ||| ·) a.bits b.bits } := by
  unfold or
  rw [if_pos h, inplace_or_ok h]

lemma xor_ok {a b : DenseBitSet} (h : a.words = b.words) :
    xor a b = .ok { a with bits := List.zipWith (· ^^^ ·) a.bits b.bits } := by
  unfold xor
  rw [if_pos h, inplace_xor_ok h]

/-- Closed form of the construction rounding: the word count is
  `ceil(num_bits / BITS_PER_WORD)`. -/
lemma with_capacity_and_state_eq (n s : Nat) :
    with_capacity_and_state n s =
      ⟨((n + BITS_PER_WORD - 1) / BITS_PER_WORD) * BITS_PER_WORD,
       List.replicate ((n + BITS_PER_WORD - 1) / BITS_PER_WORD) s⟩ := by
  unfold with_capacity_and_state BITS_PER_WORD
  have hceil : (if n % 64 > 0 then n / 64 + 1 else n / 64) = (n + 64 - 1) / 64 := by
    split_ifs with h <;> omega
  simp only [hceil]

/-! ### Claim theorems -/

/-- Claim C1: every bit-indexed operation (`test`, `set`, `flip`) invoked with
  an index `i ≥ bit_capacity` fails with the distinct, catchable `outOfRange`
  condition, and for every `i < bit_capacity` the operation accesses the
  backing word sequence in bounds and succeeds.  (The source's out-of-bounds
  `Vec` index panic is the `outOfRange` error of the embedding.) -/
theorem bit_ops_bounds_checked (bs : DenseBitSet) (i : Nat) (hwf : WF bs) :
    (bs.len ≤ i →
      test bs i = .error .outOfRange ∧
      set bs i = .error .outOfRange ∧
      flip bs i = .error .outOfRange) ∧
    (i < bs.len →
      get_word_offset i < bs.bits.length ∧
      (∃ b, test bs i = .ok b) ∧
      (∃ r bs2, set bs i = .ok (r, bs2)) ∧
      (∃ bs2, flip bs i = .ok bs2)) := by
  constructor
  · intro hge
    have h : bs.bits.length ≤ get_word_offset i := by
      have := idx_lt_iff hwf (i := i)
      omega
    exact ⟨test_err h, set_err h, flip_err h⟩
  · intro hlt
    have h : get_word_offset i < bs.bits.length := (idx_lt_iff hwf).mpr hlt
    exact ⟨h, ⟨_, test_ok h⟩, ⟨_, _, set_ok h⟩, ⟨_, flip_ok h⟩⟩

theorem bit_ops_bounds_checked_witness :
    WF (with_capacity 64) ∧ (with_capacity 64).len ≤ 100 ∧ (3 : Nat) < (with_capacity 64).len ∧
    test (with_capacity 64) 100 = .error .outOfRange ∧
    (∃ b, test (with_capacity 64) 3 = .ok b) :=
  ⟨by decide, by decide, by decide,
   ((bit_ops_bounds_checked (with_capacity 64) 100 (by decide)).1 (by decide)).1,
   ((bit_ops_bounds_checked (with_capacity 64) 3 (by decide)).2 (by decide)).2.1⟩

/-- Claim C2: each binary combination operation invoked on operands with
  different word counts fails with the `sizeMismatch` condition; the
  `assert!` fires before the combining loop runs, so in the state-passing
  model no mutated operand is produced at all (all-or-nothing). -/
theorem combine_size_mismatch (a b : DenseBitSet) (h : a.words ≠ b.words) :
    inplace_and a b = .error .sizeMismatch ∧
    inplace_or a b = .error .sizeMismatch ∧
    inplace_xor a b = .error .sizeMismatch ∧
    and a b = .error .sizeMismatch ∧
    or a b = .error .sizeMismatch ∧
    xor a b = .error .sizeMismatch := by
  unfold and or xor inplace_and inplace_or inplace_xor
  simp [h]

theorem combine_size_mismatch_witness :
    (with_capacity 64).words ≠ (with_capacity 128).words ∧
    and (with_capacity 64) (with_capacity 128) = .error .sizeMismatch :=
  ⟨by decide, (combine_size_mismatch (with_capacity 64) (with_capacity 128) (by decide)).2.2.2.1⟩

/-- Claim C4: `with_capacity n` always succeeds (it is total; `n = 0` gives
  zero words), allocates `ceil(n / BITS_PER_WORD)` words all zero, and the
  resulting capacity is the smallest multiple of the word width `≥ n`. -/
theorem with_capacity_rounds_up (n : Nat) :
    (with_capacity n).bits.length = (n + BITS_PER_WORD - 1) / BITS_PER_WORD ∧
    (∀ w ∈ (with_capacity n).bits, w = 0) ∧
    (with_capacity n).len = (with_capacity n).bits.length * BITS_PER_WORD ∧
    n ≤ (with_capacity n).len ∧
    (with_capacity n).len % BITS_PER_WORD = 0 ∧
    (∀ m, n ≤ m → m % BITS_PER_WORD = 0 → (with_capacity n).len ≤ m) := by
  have he := with_capacity_and_state_eq n 0
  unfold with_capacity
  rw [he]
  unfold DenseBitSet.len BITS_PER_WORD
  simp only [List.length_replicate]
  refine ⟨trivial, fun w hw => List.eq_of_mem_replicate hw, trivial, by omega, by omega, ?_⟩
  intro m hnm hm
  omega

theorem with_capacity_rounds_up_witness :
    (100 : Nat) ≤ 192 ∧ 192 % BITS_PER_WORD = 0 ∧ (with_capacity 100).len ≤ 192 :=
  ⟨by decide, by decide,
   (with_capacity_rounds_up 100).2.2.2.2.2 192 (by decide) (by decide)⟩

lemma lor_lor_self (a b : Nat) : (a ||| b) ||| b = a ||| b := by
  apply Nat.eq_of_testBit_eq
  intro k
  simp only [Nat.testBit_lor, Bool.or_assoc, Bool.or_self]

/-- Claim C3: for `i < bit_capacity`, on a set where bit `i` is clear
  `test i` returns `false`; `set i` makes `test i` return `true`; `set i`
  returns `true` iff bit `i` was previously clear; a second `set i` without
  an intervening clear returns `false` and leaves the state unchanged. -/
theorem set_test_first_transition (bs : DenseBitSet) (i : Nat)
    (hwf : WF bs) (hi : i < bs.len) :
    ∃ r bs2, set bs i = .ok (r, bs2) ∧
      test bs2 i = .ok true ∧
      (r = true ↔ test bs i = .ok false) ∧
      (test bs i = .ok true → r = false ∧ bs2 = bs) ∧
      set bs2 i = .ok (false, bs2) := by
  have h : get_word_offset i < bs.bits.length := (idx_lt_iff hwf).mpr hi
  refine ⟨_, _, set_ok h, ?_, ?_, ?_, ?_⟩
  · have h2 : get_word_offset i <
        (bs.bits.set (get_word_offset i) (bs.bits.get ⟨get_word_offset i, h⟩ ||| get_bitmask i)).length := by
      simpa [List.length_set] using h
    rw [test_ok h2]
    have hget : (bs.bits.set (get_word_offset i) (bs.bits.get ⟨get_word_offset i, h⟩ ||| get_bitmask i)).get ⟨get_word_offset i, h2⟩ =
        bs.bits.get ⟨get_word_offset i, h⟩ ||| get_bitmask i := by
      simp [List.get_eq_getElem, List.getElem_set_self]
    rw [hget, lor_bitmask_testBit]
  · rw [test_ok h, and_bitmask_beq]
    cases htb : (bs.bits.get ⟨get_word_offset i, h⟩).testBit (get_bit_offset i) <;> simp
  · rw [test_ok h]
    intro ht
    have htb : (bs.bits.get ⟨get_word_offset i, h⟩).testBit (get_bit_offset i) = true := by
      simpa using ht
    constructor
    · rw [and_bitmask_beq, htb]
      rfl
    · have hbits : bs.bits.set (get_word_offset i)
          (bs.bits.get ⟨get_word_offset i, h⟩ ||| get_bitmask i) = bs.bits := by
        rw [lor_bitmask_of_testBit htb, set_get_self]
      simp only [hbits]
  · have h2 : get_word_offset i <
        (bs.bits.set (get_word_offset i) (bs.bits.get ⟨get_word_offset i, h⟩ ||| get_bitmask i)).length := by
      simpa [List.length_set] using h
    rw [set_ok h2]
    have hget : (bs.bits.set (get_word_offset i) (bs.bits.get ⟨get_word_offset i, h⟩ ||| get_bitmask i)).get ⟨get_word_offset i, h2⟩ =
        bs.bits.get ⟨get_word_offset i, h⟩ ||| get_bitmask i := by
      simp [List.get_eq_getElem, List.getElem_set_self]
    rw [hget]
    congr 1
    refine Prod.ext ?_ ?_
    · show (_ == 0) = false
      rw [and_bitmask_beq, lor_bitmask_testBit]
      rfl
    · show DenseBitSet.mk _ _ = DenseBitSet.mk _ _
      congr 1
      rw [lor_lor_self, List.set_set]

theorem set_test_first_transition_witness :
    WF (from_bits 0) ∧ (5 : Nat) < (from_bits 0).len ∧
    (∃ r bs2, set (from_bits 0) 5 = .ok (r, bs2) ∧
      test bs2 5 = .ok true ∧
      (r = true ↔ test (from_bits 0) 5 = .ok false) ∧
      (test (from_bits 0) 5 = .ok true → r = false ∧ bs2 = from_bits 0) ∧
      set bs2 5 = .ok (false, bs2)) :=
  ⟨by decide, by decide, set_test_first_transition (from_bits 0) 5 (by decide) (by decide)⟩

/-- Claim C6: `inplace_not` applied twice restores the exact original word
  sequence, including padding bits beyond an originally requested `num_bits`:
  every whole word, padding included, is complemented and complemented back.
  The hypothesis restricts to `usize`-representable words, on which the
  embedding's `^^^ WORD_MAX` is Rust's `!`. -/
theorem inplace_not_involution (bs : DenseBitSet)
    (hrange : ∀ w ∈ bs.bits, w < 2 ^ BITS_PER_WORD) :
    inplace_not (inplace_not bs) = bs := by
  unfold inplace_not
  simp only [List.map_map]
  have hm : bs.bits.map ((fun w => w ^^^ WORD_MAX) ∘ (fun w => w ^^^ WORD_MAX)) = bs.bits := by
    have hid : ∀ a ∈ bs.bits, ((fun w => w ^^^ WORD_MAX) ∘ (fun w => w ^^^ WORD_MAX)) a = id a :=
      fun a _ => Nat.xor_cancel_right WORD_MAX a
    rw [List.map_congr_left hid, List.map_id]
  rw [hm]

theorem inplace_not_involution_witness :
    (∀ w ∈ (from_bits 5).bits, w < 2 ^ BITS_PER_WORD) ∧
    inplace_not (inplace_not (from_bits 5)) = from_bits 5 :=
  ⟨by decide, inplace_not_involution (from_bits 5) (by decide)⟩

/-- Claim C7: for `i < bit_capacity`, flipping bit `i` twice in succession
  restores the original state, hence the original `test i` value; `flip`
  itself returns no value in Rust (here: only the new state). -/
theorem flip_involution (bs : DenseBitSet) (i : Nat)
    (hwf : WF bs) (hi : i < bs.len) :
    ∃ bs1, flip bs i = .ok bs1 ∧ flip bs1 i = .ok bs ∧
      (∀ bs2, flip bs1 i = .ok bs2 → test bs2 i = test bs i) := by
  have h : get_word_offset i < bs.bits.length := (idx_lt_iff hwf).mpr hi
  refine ⟨_, flip_ok h, ?_, ?_⟩
  · have h1 : get_word_offset i <
        (bs.bits.set (get_word_offset i) (bs.bits.get ⟨get_word_offset i, h⟩ ^^^ get_bitmask i)).length := by
      simpa [List.length_set] using h
    rw [flip_ok h1]
    have hget : (bs.bits.set (get_word_offset i) (bs.bits.get ⟨get_word_offset i, h⟩ ^^^ get_bitmask i)).get ⟨get_word_offset i, h1⟩ =
        bs.bits.get ⟨get_word_offset i, h⟩ ^^^ get_bitmask i := by
      simp [List.get_eq_getElem, List.getElem_set_self]
    rw [hget]
    congr 1
    show DenseBitSet.mk _ _ = bs
    rw [List.set_set, Nat.xor_cancel_right, set_get_self]
  · intro bs2 h2
    have h1 : get_word_offset i <
        (bs.bits.set (get_word_offset i) (bs.bits.get ⟨get_word_offset i, h⟩ ^^^ get_bitmask i)).length := by
      simpa [List.length_set] using h
    rw [flip_ok h1] at h2
    have hback : DenseBitSet.mk bs.num_bits
        ((bs.bits.set (get_word_offset i) (bs.bits.get ⟨get_word_offset i, h⟩ ^^^ get_bitmask i)).set (get_word_offset i)
          ((bs.bits.set (get_word_offset i) (bs.bits.get ⟨get_word_offset i, h⟩ ^^^ get_bitmask i)).get ⟨get_word_offset i, h1⟩ ^^^ get_bitmask i)) = bs := by
      have hget : (bs.bits.set (get_word_offset i) (bs.bits.get ⟨get_word_offset i, h⟩ ^^^ get_bitmask i)).get ⟨get_word_offset i, h1⟩ =
          bs.bits.get ⟨get_word_offset i, h⟩ ^^^ get_bitmask i := by
        simp [List.get_eq_getElem, List.getElem_set_self]
      rw [hget, List.set_set, Nat.xor_cancel_right, set_get_self]
    rw [hback] at h2
    have : bs2 = bs := by
      have := h2
      simp only [Except.ok.injEq] at this
      exact this.symm
    rw [this]

theorem flip_involution_witness :
    WF (from_bits 5) ∧ (0 : Nat) < (from_bits 5).len ∧
    (∃ bs1, flip (from_bits 5) 0 = .ok bs1 ∧ flip bs1 0 = .ok (from_bits 5) ∧
      (∀ bs2, flip bs1 0 = .ok bs2 → test bs2 0 = test (from_bits 5) 0)) :=
  ⟨by decide, by decide, flip_involution (from_bits 5) 0 (by decide) (by decide)⟩

/-- Claim C5 as stated is false on the code: xor with the same operand
  repeated is NOT idempotent, and it IS self-inverse even when `B ≠ A`.
  Concretely with `A = from_bits 0`, `B = from_bits 1` (equal word counts):
  `A.xor(B) = ⟨64, [1]⟩`, and xoring with `B` again gives back `A`, which
  differs from `⟨64, [1]⟩` — so the repeat is not equal to a single
  application, and the double application returns `A` although `B ≠ A`. -/
theorem xor_repeat_counterexample :
    xor (from_bits 0) (from_bits 1) = .ok ⟨64, [1]⟩ ∧
    xor ⟨64, [1]⟩ (from_bits 1) = .ok (from_bits 0) ∧
    (⟨64, [1]⟩ : DenseBitSet) ≠ from_bits 0 ∧
    from_bits 0 ≠ from_bits 1 :=
  ⟨rfl, rfl, by decide, by decide⟩

/-- Claim C5 (amended): for same-word-count sets, `and` and `or` commute;
  xor with `B` applied twice returns the original set (self-inverse, for any
  `B` of the same word count); and `A.xor(A)` is a set whose words are all
  zero. -/
theorem combine_algebra (A B : DenseBitSet) (hA : WF A) (hB : WF B)
    (h : A.words = B.words) :
    and A B = and B A ∧
    or A B = or B A ∧
    (∀ C, xor A B = .ok C → xor C B = .ok A) ∧
    (∃ Z, xor A A = .ok Z ∧ Z.bits = List.replicate A.words 0 ∧ Z.len = A.len) := by
  have hlen : A.bits.length = B.bits.length := h
  have hnb : A.num_bits = B.num_bits := by
    unfold WF at hA hB
    rw [hA, hB, hlen]
  refine ⟨?_, ?_, ?_, ?_⟩
  · have hz : List.zipWith (· &&& ·) A.bits B.bits = List.zipWith (· &&& ·) B.bits A.bits :=
      List.zipWith_comm_of_comm _ Nat.land_comm A.bits B.bits
    rw [and_ok h, and_ok h.symm, hz, hnb]
  · have hz : List.zipWith (· ||| ·) A.bits B.bits = List.zipWith (· ||| ·) B.bits A.bits :=
      List.zipWith_comm_of_comm _ Nat.lor_comm A.bits B.bits
    rw [or_ok h, or_ok h.symm, hz, hnb]
  · intro C hC
    rw [xor_ok h] at hC
    have hC2 : C = ⟨A.num_bits, List.zipWith (· ^^^ ·) A.bits B.bits⟩ := by
      simp only [Except.ok.injEq] at hC
      exact hC.symm
    subst hC2
    have hw : (DenseBitSet.mk A.num_bits (List.zipWith (· ^^^ ·) A.bits B.bits)).words = B.words := by
      unfold DenseBitSet.words
      simp [List.length_zipWith, hlen]
    rw [xor_ok hw]
    show Except.ok (DenseBitSet.mk A.num_bits
      (List.zipWith (· ^^^ ·) (List.zipWith (· ^^^ ·) A.bits B.bits) B.bits)) = _
    rw [zipWith_xor_cancel A.bits B.bits hlen]
  · rw [xor_ok rfl]
    refine ⟨_, rfl, ?_, rfl⟩
    show List.zipWith (· ^^^ ·) A.bits A.bits = _
    unfold DenseBitSet.words
    exact zipWith_xor_self A.bits

theorem combine_algebra_witness :
    WF (from_bits 3) ∧ WF (from_bits 5) ∧ (from_bits 3).words = (from_bits 5).words ∧
    and (from_bits 3) (from_bits 5) = and (from_bits 5) (from_bits 3) :=
  ⟨by decide, by decide, by decide,
   (combine_algebra (from_bits 3) (from_bits 5) (by decide) (by decide) (by decide)).1⟩

/-! ### Inversion lemmas for the mutating operations (used for the invariant) -/

lemma set_inv {bs : DenseBitSet} {i : Nat} {r : Bool} {bs2 : DenseBitSet}
    (h : set bs i = .ok (r, bs2)) :
    bs2.num_bits = bs.num_bits ∧ bs2.bits.length = bs.bits.length := by
  by_cases hlt : get_word_offset i < bs.bits.length
  · rw [set_ok hlt] at h
    simp only [Except.ok.injEq, Prod.mk.injEq] at h
    obtain ⟨-, h2⟩ := h
    rw [← h2]
    exact ⟨rfl, List.length_set ..⟩
  · rw [set_err (Nat.le_of_not_lt hlt)] at h
    exact absurd h (by simp)

lemma flip_inv {bs : DenseBitSet} {i : Nat} {bs2 : DenseBitSet}
    (h : flip bs i = .ok bs2) :
    bs2.num_bits = bs.num_bits ∧ bs2.bits.length = bs.bits.length := by
  by_cases hlt : get_word_offset i < bs.bits.length
  · rw [flip_ok hlt] at h
    simp only [Except.ok.injEq] at h
    rw [← h]
    exact ⟨rfl, List.length_set ..⟩
  · rw [flip_err (Nat.le_of_not_lt hlt)] at h
    exact absurd h (by simp)

lemma inplace_and_inv {a b c : DenseBitSet} (h : inplace_and a b = .ok c) :
    a.words = b.words ∧ c = { a with bits := List.zipWith (· &&& ·) a.bits b.bits } := by
  unfold inplace_and at h
  by_cases hw : a.words = b.words
  · rw [if_pos hw] at h
    simp only [Except.ok.injEq] at h
    exact ⟨hw, h.symm⟩
  · rw [if_neg hw] at h
    exact absurd h (by simp)

lemma inplace_or_inv {a b c : DenseBitSet} (h : inplace_or a b = .ok c) :
    a.words = b.words ∧ c = { a with bits := List.zipWith (· ||| ·) a.bits b.bits } := by
  unfold inplace_or at h
  by_cases hw : a.words = b.words
  · rw [if_pos hw] at h
    simp only [Except.ok.injEq] at h
    exact ⟨hw, h.symm⟩
  · rw [if_neg hw] at h
    exact absurd h (by simp)

lemma inplace_xor_inv {a b c : DenseBitSet} (h : inplace_xor a b = .ok c) :
    a.words = b.words ∧ c = { a with bits := List.zipWith (· ^^^ ·) a.bits b.bits } := by
  unfold inplace_xor at h
  by_cases hw : a.words = b.words
  · rw [if_pos hw] at h
    simp only [Except.ok.injEq] at h
    exact ⟨hw, h.symm⟩
  · rw [if_neg hw] at h
    exact absurd h (by simp)

lemma and_inv {a b c : DenseBitSet} (h : and a b = .ok c) :
    a.words = b.words ∧ c = { a with bits := List.zipWith (· &&& ·) a.bits b.bits } := by
  unfold and at h
  by_cases hw : a.words = b.words
  · rw [if_pos hw] at h
    exact inplace_and_inv h
  · rw [if_neg hw] at h
    exact absurd h (by simp)

lemma or_inv {a b c : DenseBitSet} (h : or a b = .ok c) :
    a.words = b.words ∧ c = { a with bits := List.zipWith (· ||| ·) a.bits b.bits } := by
  unfold or at h
  by_cases hw : a.words = b.words
  · rw [if_pos hw] at h
    exact inplace_or_inv h
  · rw [if_neg hw] at h
    exact absurd h (by simp)

lemma xor_inv {a b c : DenseBitSet} (h : xor a b = .ok c) :
    a.words = b.words ∧ c = { a with bits := List.zipWith (· ^^^ ·) a.bits b.bits } := by
  unfold xor at h
  by_cases hw : a.words = b.words
  · rw [if_pos hw] at h
    exact inplace_xor_inv h
  · rw [if_neg hw] at h
    exact absurd h (by simp)

lemma wf_with_capacity_and_state (n s : Nat) : WF (with_capacity_and_state n s) := by
  rw [with_capacity_and_state_eq]
  unfold WF
  simp [List.length_replicate]

/-- A word-wise combination result (with matching operand word counts)
  keeps `self`'s word count, capacity and invariant. -/
lemma wf_zip {f : Nat → Nat → Nat} {a b c : DenseBitSet}
    (hw : a.words = b.words)
    (hc : c = { a with bits := List.zipWith f a.bits b.bits }) :
    (WF a → WF c) ∧ c.words = a.words ∧ c.len = a.len := by
  have hlen : a.bits.length = b.bits.length := hw
  subst hc
  refine ⟨?_, ?_, rfl⟩
  · intro hA
    unfold WF at hA ⊢
    simp [List.length_zipWith, hlen, hA]
  · unfold DenseBitSet.words
    simp [List.length_zipWith, hlen]

/-- Claim C10: every constructor establishes the structural invariant
  `num_bits = words.length * BITS_PER_WORD`, and every operation preserves
  the word count, the stored capacity, and hence the invariant — so the
  invariant holds after any sequence of operations. -/
theorem invariant_preserved :
    (∀ n, WF (with_capacity n)) ∧
    (∀ n s, WF (with_capacity_and_state n s)) ∧
    (∀ p, WF (from_bits p)) ∧
    (∀ v, WF (from_vec v)) ∧
    (∀ bs i r bs2, set bs i = .ok (r, bs2) →
      (WF bs → WF bs2) ∧ bs2.words = bs.words ∧ bs2.len = bs.len) ∧
    (∀ bs i bs2, flip bs i = .ok bs2 →
      (WF bs → WF bs2) ∧ bs2.words = bs.words ∧ bs2.len = bs.len) ∧
    (∀ bs, (WF bs → WF (inplace_not bs)) ∧
      (inplace_not bs).words = bs.words ∧ (inplace_not bs).len = bs.len) ∧
    (∀ a b c, inplace_and a b = .ok c →
      (WF a → WF c) ∧ c.words = a.words ∧ c.len = a.len) ∧
    (∀ a b c, inplace_or a b = .ok c →
      (WF a → WF c) ∧ c.words = a.words ∧ c.len = a.len) ∧
    (∀ a b c, inplace_xor a b = .ok c →
      (WF a → WF c) ∧ c.words = a.words ∧ c.len = a.len) ∧
    (∀ a b c, and a b = .ok c →
      (WF a → WF c) ∧ c.words = a.words ∧ c.len = a.len) ∧
    (∀ a b c, or a b = .ok c →
      (WF a → WF c) ∧ c.words = a.words ∧ c.len = a.len) ∧
    (∀ a b c, xor a b = .ok c →
      (WF a → WF c) ∧ c.words = a.words ∧ c.len = a.len) := by
  refine ⟨fun n => wf_with_capacity_and_state n 0,
    wf_with_capacity_and_state,
    fun p => wf_with_capacity_and_state BITS_PER_WORD p,
    ?_, ?_, ?_, ?_,
    fun a b c h => wf_zip (inplace_and_inv h).1 (inplace_and_inv h).2,
    fun a b c h => wf_zip (inplace_or_inv h).1 (inplace_or_inv h).2,
    fun a b c h => wf_zip (inplace_xor_inv h).1 (inplace_xor_inv h).2,
    fun a b c h => wf_zip (and_inv h).1 (and_inv h).2,
    fun a b c h => wf_zip (or_inv h).1 (or_inv h).2,
    fun a b c h => wf_zip (xor_inv h).1 (xor_inv h).2⟩
  · intro v
    unfold WF from_vec
    exact Nat.mul_comm BITS_PER_WORD v.length
  · intro bs i r bs2 h
    obtain ⟨hn, hl⟩ := set_inv h
    refine ⟨?_, hl, hn⟩
    intro hwf
    unfold WF at hwf ⊢
    rw [hn, hl, hwf]
  · intro bs i bs2 h
    obtain ⟨hn, hl⟩ := flip_inv h
    refine ⟨?_, hl, hn⟩
    intro hwf
    unfold WF at hwf ⊢
    rw [hn, hl, hwf]
  · intro bs
    refine ⟨?_, ?_, rfl⟩
    · intro hwf
      unfold WF at hwf ⊢
      unfold inplace_not
      simp [List.length_map, hwf]
    · unfold DenseBitSet.words inplace_not
      simp [List.length_map]

theorem invariant_preserved_witness :
    WF (with_capacity 100) ∧
    set (with_capacity 100) 7 = .ok (true, ⟨128, [128, 0]⟩) ∧
    WF (⟨128, [128, 0]⟩ : DenseBitSet) ∧
    (⟨128, [128, 0]⟩ : DenseBitSet).words = (with_capacity 100).words :=
  ⟨invariant_preserved.1 100, rfl,
   ((invariant_preserved.2.2.2.2.1 (with_capacity 100) 7 true ⟨128, [128, 0]⟩ rfl).1
     (invariant_preserved.1 100)),
   (invariant_preserved.2.2.2.2.1 (with_capacity 100) 7 true ⟨128, [128, 0]⟩ rfl).2.1⟩

/-! ### The iterator protocol -/

lemma runSteps_eq (bs : DenseBitSet) :
    ∀ d i, bs.len - i = d → runSteps bs i d = (List.range' i d).map (test bs) := by
  intro d
  induction d with
  | zero => intro i _; rfl
  | succ d ih =>
    intro i h
    have hi : i < bs.len := by omega
    have hr : List.range' i (d + 1) = i :: List.range' (i + 1) d := rfl
    rw [hr, List.map_cons, ← ih (i + 1) (by omega)]
    simp only [runSteps, if_pos hi]

/-- `run` follows exactly the `next` protocol of the iterator: it emits what
  `next` yields and stops when `next` returns `none`. -/
lemma run_matches_next (it : DenseBitIterator) :
    it.run = (match it.next with
      | none => []
      | some p => p.1 :: p.2.run) := by
  unfold DenseBitIterator.run DenseBitIterator.next
  by_cases h : it.index < it.collection.len
  · have hd : it.collection.len - it.index = (it.collection.len - (it.index + 1)) + 1 := by
      omega
    rw [hd]
    simp [h, runSteps]
  · have hd : it.collection.len - it.index = 0 := by omega
    rw [hd]
    simp [h, runSteps]

/-- Claim C8: iterating a set of capacity `c` yields exactly `c` values, one
  per position `0 .. c-1` in ascending order; the k-th item is `test k` read
  from the live set (which under the invariant is a successful boolean). -/
theorem iteration_yields_each_bit (bs : DenseBitSet) (hwf : WF bs) :
    ((into_iter bs).run).length = bs.len ∧
    (∀ k, k < bs.len → ((into_iter bs).run)[k]? = some (test bs k)) ∧
    (∀ k, k < bs.len → ∃ b : Bool, test bs k = .ok b) := by
  have hrun : (into_iter bs).run = (List.range bs.len).map (test bs) := by
    unfold into_iter DenseBitIterator.run
    rw [runSteps_eq bs (bs.len - 0) 0 rfl, List.range_eq_range', Nat.sub_zero]
  refine ⟨?_, ?_, ?_⟩
  · rw [hrun, List.length_map, List.length_range]
  · intro k hk
    rw [hrun, List.getElem?_map, List.getElem?_range hk]
    rfl
  · intro k hk
    exact ⟨_, test_ok ((idx_lt_iff hwf).mpr hk)⟩

theorem iteration_yields_each_bit_witness :
    WF (from_bits 5) ∧
    ((into_iter (from_bits 5)).run).length = (from_bits 5).len ∧
    (∃ b : Bool, test (from_bits 5) 2 = .ok b) :=
  ⟨by decide, (iteration_yields_each_bit (from_bits 5) (by decide)).1,
   (iteration_yields_each_bit (from_bits 5) (by decide)).2.2 2 (by decide)⟩

/-! ### The debug rendering -/

/-- The boolean value of bit `i`, as a total function (out-of-bounds words
  default to `0`); agrees with a successful `test` (`test_ok_getD`). -/
def testBitD (bs : DenseBitSet) (i : Nat) : Bool :=
  (bs.bits.getD (get_word_offset i) 0).testBit (get_bit_offset i)

lemma test_ok_getD {bs : DenseBitSet} {i : Nat} (h : get_word_offset i < bs.bits.length) :
    test bs i = .ok (testBitD bs i) := by
  rw [test_ok h]
  unfold testBitD
  have hg : bs.bits.getD (get_word_offset i) 0 = bs.bits.get ⟨get_word_offset i, h⟩ := by
    simp [List.getD, List.getElem?_eq_getElem h, List.get_eq_getElem]
  rw [hg]

lemma mapM_ok_of_forall {E α β : Type} (f : α → Except E β) (g : α → β) :
    ∀ l : List α, (∀ a ∈ l, f a = .ok (g a)) → l.mapM f = .ok (l.map g) := by
  intro l
  induction l with
  | nil => intro _; rfl
  | cons a t ih =>
    intro h
    rw [List.mapM_cons, h a (List.mem_cons_self a t),
      ih (fun x hx => h x (List.mem_cons_of_mem a hx))]
    rfl

/-- Claim C9 as stated is false on the code: the debug rendering is NOT
  exactly `bit_capacity` characters — the `Debug` impl first writes the
  13-character prefix "DenseBitset: ".  On `with_capacity 0` (capacity 0)
  the rendering has length 13, not 0. -/
theorem debug_format_counterexample :
    fmtDebug (with_capacity 0) = .ok "DenseBitset: " ∧
    (with_capacity 0).len = 0 ∧
    "DenseBitset: ".length ≠ (with_capacity 0).len :=
  ⟨rfl, rfl, by decide⟩

/-- Claim C9 (amended): the debug rendering is the 13-character ASCII prefix
  "DenseBitset: " followed by exactly `bit_capacity` characters, where the
  k-th of those is `'1'` if `test k` is true and `'0'` otherwise, in
  ascending index order. -/
theorem debug_format_renders_bits (bs : DenseBitSet) (hwf : WF bs) :
    ∃ cs : List Char, fmtDebug bs = .ok ("DenseBitset: " ++ String.mk cs) ∧
      cs.length = bs.len ∧
      ∀ k, k < bs.len → ∃ b, test bs k = .ok b ∧
        cs[k]? = some (if b then '1' else '0') := by
  refine ⟨(List.range bs.len).map (fun k => if testBitD bs k then '1' else '0'), ?_, ?_, ?_⟩
  · unfold fmtDebug
    rw [mapM_ok_of_forall _ (fun k => if testBitD bs k then '1' else '0') (List.range bs.len) ?_]
    · rfl
    · intro a ha
      have hk : a < bs.len := List.mem_range.mp ha
      have h : get_word_offset a < bs.bits.length := (idx_lt_iff hwf).mpr hk
      show (do
        let b ← test bs a
        pure (if b then '1' else '0')) = Except.ok (if testBitD bs a then '1' else '0')
      rw [test_ok_getD h]
      rfl
  · rw [List.length_map, List.length_range]
  · intro k hk
    have h : get_word_offset k < bs.bits.length := (idx_lt_iff hwf).mpr hk
    refine ⟨testBitD bs k, test_ok_getD h, ?_⟩
    rw [List.getElem?_map, List.getElem?_range hk]
    rfl

theorem debug_format_renders_bits_witness :
    WF (from_bits 5) ∧
    (∃ cs : List Char, fmtDebug (from_bits 5) = .ok ("DenseBitset: " ++ String.mk cs) ∧
      cs.length = (from_bits 5).len ∧
      ∀ k, k < (from_bits 5).len → ∃ b, test (from_bits 5) k = .ok b ∧
        cs[k]? = some (if b then '1' else '0')) :=
  ⟨by decide, debug_format_renders_bits (from_bits 5) (by decide)⟩

end BitSets
